import Mathlib

set_option linter.unusedVariables false

/-
Shallow embedding of `src/reaction.py` (Lynch-Willet reaction-core
extraction).  The file `reaction.py` is the authority for `Reaction.__init__`,
`Reaction.find_core` and `Reaction.make_ec_map`; the collaborator class
`Chemical` (module `chemical`, not part of the sources) is modelled from the
specification where marked.
-/

namespace Mapper

/-- A molecular graph, as the spec's opaque collaborator structure: one local
attribute label per atom (standing for element/charge/aromaticity), plus an
edge list.  Atom indices are `0 .. labels.length - 1`. -/
structure Graph where
  labels : List Nat
  edges : List (Nat × Nat)
deriving DecidableEq

def natoms (g : Graph) : Nat := g.labels.length

/-- Neighbor enumeration: the other endpoint of every incident edge. -/
def neighbors (g : Graph) (i : Nat) : List Nat :=
  g.edges.filterMap (fun e =>
    if e.1 = i then some e.2 else if e.2 = i then some e.1 else none)

/-- Modelled from the spec: the round-0 seed of `Chemical.init_ecs` is a
deterministic function of the atom's local attributes (label) and degree
only; we take the standard pairing of the two. -/
def seed (g : Graph) (i : Nat) : Nat :=
  Nat.pair (g.labels.getD i 0) (neighbors g i).length

/-- Modelled from the spec: `Chemical.init_ecs` returns one seed EC per
current atom, in atom-index order. -/
def init_ecs (g : Graph) : List Nat :=
  (List.range (natoms g)).map (seed g)

/-- Modelled from the spec: `Chemical.increment_ecs` advances one refinement
round, giving each atom its own previous value plus the sum of its direct
neighbors' previous values (an order-independent combination). -/
def increment_ecs (g : Graph) (ecs : List Nat) : List Nat :=
  (List.range (natoms g)).map
    (fun i => ecs.getD i 0 + ((neighbors g i).map (fun j => ecs.getD j 0)).sum)

/-- Modelled from the spec: `Chemical.find_ec_mcs` expands a matched atom
index into its EC-MCS fragment.  The exact closure policy is an open question
in the spec; it requires only that the result is deterministic and contains
at least the atom itself, so we model the minimal compliant policy. -/
def find_ec_mcs (g : Graph) (idx : Nat) : List Nat := [idx]

/-- Modelled from the spec: `Chemical.remove_atoms` deletes the given atom
indices, drops incident bonds, and renumbers the remaining atoms
contiguously. -/
def remove_atoms (g : Graph) (s : List Nat) : Graph :=
  let keep := (List.range (natoms g)).filter (fun i => decide (¬ i ∈ s))
  let reindex := fun i => (keep.filter (fun j => decide (j < i))).length
  { labels := keep.map (fun i => g.labels.getD i 0)
    edges := g.edges.filterMap (fun e =>
      if e.1 ∈ keep ∧ e.2 ∈ keep then some (reindex e.1, reindex e.2)
      else none) }

/-- Truthiness of `set(xs).intersection(ys)` in the Python source: the two
lists share at least one value. -/
def hasCommon (xs ys : List Nat) : Bool :=
  xs.any (fun x => decide (x ∈ ys))

/-- One `setdefault(ec, []).append(idx)` step of `Reaction.make_ec_map`,
on a dictionary represented as an insertion-ordered association list. -/
def mapInsert (m : List (Nat × List Nat)) (ec idx : Nat) : List (Nat × List Nat) :=
  match m with
  | [] => [(ec, [idx])]
  | (k, v) :: rest =>
    if k = ec then (k, v ++ [idx]) :: rest else (k, v) :: mapInsert rest ec idx

/-- The `for idx, ec in enumerate(ecs)` loop of `Reaction.make_ec_map`,
with `i` the index of the first element of the remaining list. -/
def make_ec_map_go (m : List (Nat × List Nat)) (i : Nat) : List Nat → List (Nat × List Nat)
  | [] => m
  | ec :: rest => make_ec_map_go (mapInsert m ec i) (i + 1) rest

/-- `Reaction.make_ec_map`: dictionary from EC value to the list of atom
indices holding that value, in insertion order. -/
def make_ec_map (ecs : List Nat) : List (Nat × List Nat) :=
  make_ec_map_go [] 0 ecs

/-- Python dictionary lookup on the association-list representation. -/
def lookupEc : List (Nat × List Nat) → Nat → Option (List Nat)
  | [], _ => none
  | (k, v) :: rest, e => if k = e then some v else lookupEc rest e

def mapKeys (m : List (Nat × List Nat)) : List Nat := m.map Prod.fst

/-- `set(reactant_map).intersection(product_map)` from `find_core`:
the keys of the first map that are also keys of the second. -/
def common_ecs (m1 m2 : List (Nat × List Nat)) : List Nat :=
  (mapKeys m1).filter (fun e => decide (e ∈ mapKeys m2))

/-- The local-variable state of one `find_core` activation: the two mutable
graphs, plus the (possibly still unassigned) `prev_reactant_ecs` /
`prev_product_ecs` pair, which in Python persists across outer iterations. -/
structure LWState where
  reactant : Graph
  product : Graph
  prev : Option (List Nat × List Nat)
deriving DecidableEq

def initState (r p : Graph) : LWState := ⟨r, p, none⟩

/-- The inner refinement loop of `find_core` (lines 35-42), with explicit
fuel bounding the number of body executions.  Returns `none` when the fuel is
exhausted while the value-sets still overlap (a diverging loop), otherwise
the final `(prev, next_reactant_ecs, next_product_ecs)`. -/
def innerLoop (r p : Graph) : Nat → List Nat → List Nat →
    Option (List Nat × List Nat) →
    Option (Option (List Nat × List Nat) × List Nat × List Nat)
  | 0, nr, np, prev =>
    if hasCommon nr np then none else some (prev, nr, np)
  | fuel + 1, nr, np, prev =>
    if hasCommon nr np then
      innerLoop r p fuel (increment_ecs r nr) (increment_ecs p np) (some (nr, np))
    else some (prev, nr, np)

/-- Result of one outer-loop iteration of `find_core`. -/
inductive StepRes where
  | done (r p : Graph)
  | more (s : LWState)
  | nameError
  | innerDiverge
deriving DecidableEq

/-- The `for ec in common_ecs: for idx in map[ec]: mcs.update(find_ec_mcs(idx))`
loops of `find_core` (lines 56-60), for one graph and its EC map. -/
def ecMcsSet (g : Graph) (common : List Nat) (gmap : List (Nat × List Nat)) : List Nat :=
  (common.flatMap (fun ec => (lookupEc gmap ec).getD [])).flatMap
    (fun idx => find_ec_mcs g idx)

/-- Lines 44-64 of `find_core`: build the EC maps from the saved previous
sequences, intersect their key sets, either break (returning the graphs) or
expand the matched indices into EC-MCS sets and delete them. -/
def mcsStep (r p : Graph) (pr pp : List Nat) : StepRes :=
  let rmap := make_ec_map pr
  let pmap := make_ec_map pp
  let common := common_ecs rmap pmap
  if common = [] then StepRes.done r p
  else
    StepRes.more ⟨remove_atoms r (ecMcsSet r common rmap),
      remove_atoms p (ecMcsSet p common pmap), some (pr, pp)⟩

/-- One outer iteration of `find_core` (lines 28-64): reseed, run the
refinement sub-loop, then the MCS/removal phase.  Referencing a still
unassigned `prev_reactant_ecs` is Python's `NameError`. -/
def outerStep (innerFuel : Nat) (s : LWState) : StepRes :=
  match innerLoop s.reactant s.product innerFuel
      (init_ecs s.reactant) (init_ecs s.product) s.prev with
  | none => StepRes.innerDiverge
  | some (none, _, _) => StepRes.nameError
  | some (some (pr, pp), _, _) => mcsStep s.reactant s.product pr pp

/-- Possible outcomes of `find_core` under an outer-iteration fuel bound. -/
inductive Outcome where
  | ok (r p : Graph)
  | nameError
  | innerDiverge
  | fuelOut
deriving DecidableEq

def Outcome.isOk : Outcome → Bool
  | Outcome.ok _ _ => true
  | _ => false

/-- `Reaction.find_core`, running at most `fuel` outer iterations.  The
returned graph pair stands for the serialized reaction core of line 66. -/
def find_core (innerFuel : Nat) : Nat → LWState → Outcome
  | 0, _ => Outcome.fuelOut
  | fuel + 1, s =>
    match outerStep innerFuel s with
    | StepRes.done r p => Outcome.ok r p
    | StepRes.nameError => Outcome.nameError
    | StepRes.innerDiverge => Outcome.innerDiverge
    | StepRes.more s2 => find_core innerFuel fuel s2

/-- EC sequence of a fixed graph at refinement round `k`. -/
def ecAt (g : Graph) : Nat → List Nat
  | 0 => init_ecs g
  | k + 1 => increment_ecs g (ecAt g k)

/-- The `prev` pair is either still unassigned or was saved while the two
value-sets overlapped — the invariant maintained by `find_core`. -/
def PrevOkB : Option (List Nat × List Nat) → Bool
  | none => true
  | some (a, b) => hasCommon a b

def StepRes.isDone : StepRes → Bool
  | StepRes.done _ _ => true
  | _ => false

/-- The indices (offset by `i`) of the elements of `l` equal to `e`; the
reference bucket shape for `make_ec_map`. -/
def idxsFrom (i : Nat) (l : List Nat) (e : Nat) : List Nat :=
  match l with
  | [] => []
  | x :: rest =>
    if x = e then i :: idxsFrom (i + 1) rest e else idxsFrom (i + 1) rest e

theorem length_init_ecs (g : Graph) : (init_ecs g).length = natoms g := by
  simp [init_ecs]

theorem length_increment_ecs (g : Graph) (ecs : List Nat) :
    (increment_ecs g ecs).length = natoms g := by
  simp [increment_ecs]

theorem hasCommon_iff {xs ys : List Nat} :
    hasCommon xs ys = true ↔ ∃ x, x ∈ xs ∧ x ∈ ys := by
  simp [hasCommon]

theorem mem_idxsFrom (j e : Nat) : ∀ (l : List Nat) (i : Nat),
    j ∈ idxsFrom i l e ↔ i ≤ j ∧ j - i < l.length ∧ l.getD (j - i) 0 = e
  | [], i => by simp [idxsFrom]
  | x :: rest, i => by
    have ih := mem_idxsFrom j e rest (i + 1)
    by_cases hx : x = e
    · simp only [idxsFrom, if_pos hx, List.mem_cons, ih, List.length_cons]
      constructor
      · rintro (rfl | ⟨h1, h2, h3⟩)
        · exact ⟨Nat.le_refl _, by simp, by simpa using hx⟩
        · refine ⟨by omega, by omega, ?_⟩
          have heq : j - i = (j - (i + 1)) + 1 := by omega
          rw [heq, List.getD_cons_succ]
          exact h3
      · rintro ⟨h1, h2, h3⟩
        rcases Nat.eq_or_lt_of_le h1 with rfl | hlt
        · exact Or.inl rfl
        · refine Or.inr ⟨by omega, by omega, ?_⟩
          have heq : j - i = (j - (i + 1)) + 1 := by omega
          rw [heq, List.getD_cons_succ] at h3
          exact h3
    · simp only [idxsFrom, if_neg hx, ih, List.length_cons]
      constructor
      · rintro ⟨h1, h2, h3⟩
        refine ⟨by omega, by omega, ?_⟩
        have heq : j - i = (j - (i + 1)) + 1 := by omega
        rw [heq, List.getD_cons_succ]
        exact h3
      · rintro ⟨h1, h2, h3⟩
        rcases Nat.eq_or_lt_of_le h1 with rfl | hlt
        · rw [Nat.sub_self, List.getD_cons_zero] at h3
          exact absurd h3 hx
        · have heq : j - i = (j - (i + 1)) + 1 := by omega
          rw [heq, List.getD_cons_succ] at h3
          exact ⟨by omega, by omega, h3⟩

theorem pairwise_idxsFrom (e : Nat) : ∀ (l : List Nat) (i : Nat),
    List.Pairwise (· < ·) (idxsFrom i l e)
  | [], i => by simp [idxsFrom]
  | x :: rest, i => by
    have ih := pairwise_idxsFrom e rest (i + 1)
    by_cases hx : x = e
    · simp only [idxsFrom, if_pos hx]
      refine List.Pairwise.cons ?_ ih
      intro j hj
      have := ((mem_idxsFrom j e rest (i + 1)).1 hj).1
      omega
    · simpa only [idxsFrom, if_neg hx] using ih

theorem idxsFrom_ne_nil (e : Nat) : ∀ (l : List Nat) (i : Nat),
    e ∈ l → idxsFrom i l e ≠ []
  | [], _, h => by simp at h
  | x :: rest, i, h => by
    by_cases hx : x = e
    · simp [idxsFrom, hx]
    · have hr : e ∈ rest := by
        rcases List.mem_cons.1 h with h1 | h1
        · exact absurd h1.symm hx
        · exact h1
      simpa [idxsFrom, hx] using idxsFrom_ne_nil e rest (i + 1) hr

theorem lookupEc_mapInsert (ec idx e : Nat) : ∀ (m : List (Nat × List Nat)),
    lookupEc (mapInsert m ec idx) e =
      if ec = e then some ((lookupEc m ec).getD [] ++ [idx]) else lookupEc m e
  | [] => by
    by_cases h : ec = e <;> simp [mapInsert, lookupEc, h]
  | (k, v) :: rest => by
    have ih := lookupEc_mapInsert ec idx e rest
    by_cases hk : k = ec
    · subst hk
      by_cases he : k = e <;> simp [mapInsert, lookupEc, he]
    · by_cases he : k = e
      · subst he
        have hne : ¬ ec = k := fun hh => hk hh.symm
        simp [mapInsert, lookupEc, hk, hne]
      · simp [mapInsert, lookupEc, hk, he, ih]

theorem lookupEc_go_some (e : Nat) : ∀ (l : List Nat) (m : List (Nat × List Nat))
    (i : Nat) (b : List Nat), lookupEc m e = some b →
    lookupEc (make_ec_map_go m i l) e = some (b ++ idxsFrom i l e)
  | [], m, i, b, h => by simpa [make_ec_map_go, idxsFrom] using h
  | x :: rest, m, i, b, h => by
    by_cases hx : x = e
    · subst hx
      have h2 : lookupEc (mapInsert m x i) x = some (b ++ [i]) := by
        rw [lookupEc_mapInsert]
        simp [h]
      have h3 := lookupEc_go_some x rest (mapInsert m x i) (i + 1) (b ++ [i]) h2
      simp only [make_ec_map_go]
      rw [h3]
      simp [idxsFrom]
    · have h2 : lookupEc (mapInsert m x i) e = some b := by
        rw [lookupEc_mapInsert]
        simp [hx, h]
      have h3 := lookupEc_go_some e rest (mapInsert m x i) (i + 1) b h2
      simp only [make_ec_map_go]
      rw [h3]
      simp [idxsFrom, hx]

theorem lookupEc_go_none (e : Nat) : ∀ (l : List Nat) (m : List (Nat × List Nat))
    (i : Nat), lookupEc m e = none →
    lookupEc (make_ec_map_go m i l) e =
      if e ∈ l then some (idxsFrom i l e) else none
  | [], m, i, h => by simpa [make_ec_map_go] using h
  | x :: rest, m, i, h => by
    by_cases hx : x = e
    · subst hx
      have h2 : lookupEc (mapInsert m x i) x = some [i] := by
        rw [lookupEc_mapInsert]
        simp [h]
      have h3 := lookupEc_go_some x rest (mapInsert m x i) (i + 1) [i] h2
      simp only [make_ec_map_go]
      rw [h3]
      simp [idxsFrom]
    · have h2 : lookupEc (mapInsert m x i) e = none := by
        rw [lookupEc_mapInsert]
        simp [hx, h]
      have h3 := lookupEc_go_none e rest (mapInsert m x i) (i + 1) h2
      have hxe : ¬ e = x := fun hh => hx hh.symm
      simp only [make_ec_map_go]
      rw [h3]
      by_cases hm : e ∈ rest <;> simp [idxsFrom, hx, hxe, hm, List.mem_cons]

theorem lookupEc_make_ec_map (ecs : List Nat) (e : Nat) :
    lookupEc (make_ec_map ecs) e =
      if e ∈ ecs then some (idxsFrom 0 ecs e) else none :=
  lookupEc_go_none e ecs [] 0 rfl

theorem mem_mapKeys (e : Nat) : ∀ (m : List (Nat × List Nat)),
    e ∈ mapKeys m ↔ ∃ b, lookupEc m e = some b
  | [] => by simp [mapKeys, lookupEc]
  | (k, v) :: rest => by
    have ih := mem_mapKeys e rest
    by_cases hk : k = e
    · subst hk
      simp [mapKeys, lookupEc]
    · have hek : ¬ e = k := fun hh => hk hh.symm
      simp only [mapKeys, List.map_cons, List.mem_cons, lookupEc, if_neg hk, hek,
        false_or]
      exact ih

theorem mem_mapKeys_make {e : Nat} {ecs : List Nat} :
    e ∈ mapKeys (make_ec_map ecs) ↔ e ∈ ecs := by
  rw [mem_mapKeys e, lookupEc_make_ec_map]
  by_cases h : e ∈ ecs <;> simp [h]

theorem mem_common_ecs {e : Nat} {m1 m2 : List (Nat × List Nat)} :
    e ∈ common_ecs m1 m2 ↔ e ∈ mapKeys m1 ∧ e ∈ mapKeys m2 := by
  simp [common_ecs, List.mem_filter]

theorem common_ecs_make_ne_nil {a b : List Nat} (h : hasCommon a b = true) :
    common_ecs (make_ec_map a) (make_ec_map b) ≠ [] := by
  rcases hasCommon_iff.1 h with ⟨e, he1, he2⟩
  exact List.ne_nil_of_mem
    (mem_common_ecs.2 ⟨mem_mapKeys_make.2 he1, mem_mapKeys_make.2 he2⟩)

theorem innerLoop_exit_divergent {r p : Graph} {fuel : Nat} {nr np : List Nat}
    {prev prev2 : Option (List Nat × List Nat)} {nr2 np2 : List Nat}
    (h : innerLoop r p fuel nr np prev = some (prev2, nr2, np2)) :
    hasCommon nr2 np2 = false := by
  induction fuel generalizing nr np prev with
  | zero =>
    by_cases hc : hasCommon nr np = true
    · simp [innerLoop, hc] at h
    · simp only [innerLoop, if_neg hc, Option.some_inj, Prod.mk.injEq] at h
      rcases h with ⟨h1, h2, h3⟩
      subst h2
      subst h3
      simpa using hc
  | succ f ih =>
    by_cases hc : hasCommon nr np = true
    · simp only [innerLoop, if_pos hc] at h
      exact ih h
    · simp only [innerLoop, if_neg hc, Option.some_inj, Prod.mk.injEq] at h
      rcases h with ⟨h1, h2, h3⟩
      subst h2
      subst h3
      simpa using hc

theorem innerLoop_prevOk {r p : Graph} {fuel : Nat} {nr np : List Nat}
    {prev prev2 : Option (List Nat × List Nat)} {nr2 np2 : List Nat}
    (hp : PrevOkB prev = true)
    (h : innerLoop r p fuel nr np prev = some (prev2, nr2, np2)) :
    PrevOkB prev2 = true := by
  induction fuel generalizing nr np prev with
  | zero =>
    by_cases hc : hasCommon nr np = true
    · simp [innerLoop, hc] at h
    · simp only [innerLoop, if_neg hc, Option.some_inj, Prod.mk.injEq] at h
      rw [← h.1]
      exact hp
  | succ f ih =>
    by_cases hc : hasCommon nr np = true
    · simp only [innerLoop, if_pos hc] at h
      exact ih (by simpa [PrevOkB] using hc) h
    · simp only [innerLoop, if_neg hc, Option.some_inj, Prod.mk.injEq] at h
      rw [← h.1]
      exact hp

theorem innerLoop_cases {r p : Graph} {fuel : Nat} {nr np : List Nat}
    {prev prev2 : Option (List Nat × List Nat)} {nr2 np2 : List Nat}
    (hlr : nr.length = natoms r) (hlp : np.length = natoms p)
    (h : innerLoop r p fuel nr np prev = some (prev2, nr2, np2)) :
    (hasCommon nr np = false ∧ prev2 = prev ∧ nr2 = nr ∧ np2 = np) ∨
    (∃ a b, prev2 = some (a, b) ∧ hasCommon a b = true ∧
      a.length = natoms r ∧ b.length = natoms p ∧
      nr2 = increment_ecs r a ∧ np2 = increment_ecs p b) := by
  induction fuel generalizing nr np prev with
  | zero =>
    by_cases hc : hasCommon nr np = true
    · simp [innerLoop, hc] at h
    · simp only [innerLoop, if_neg hc, Option.some_inj, Prod.mk.injEq] at h
      rcases h with ⟨h1, h2, h3⟩
      exact Or.inl ⟨by simpa using hc, h1.symm, h2.symm, h3.symm⟩
  | succ f ih =>
    by_cases hc : hasCommon nr np = true
    · simp only [innerLoop, if_pos hc] at h
      rcases ih (length_increment_ecs r nr) (length_increment_ecs p np) h with
        ⟨hdiv, hprev, hnr, hnp⟩ | ⟨a, b, h1, h2, h3, h4, h5, h6⟩
      · exact Or.inr ⟨nr, np, hprev, hc, hlr, hlp, hnr, hnp⟩
      · exact Or.inr ⟨a, b, h1, h2, h3, h4, h5, h6⟩
    · simp only [innerLoop, if_neg hc, Option.some_inj, Prod.mk.injEq] at h
      rcases h with ⟨h1, h2, h3⟩
      exact Or.inl ⟨by simpa using hc, h1.symm, h2.symm, h3.symm⟩

theorem mem_ecMcsSet {g : Graph} {common : List Nat}
    {gmap : List (Nat × List Nat)} {j : Nat} (e : Nat) (he : e ∈ common)
    (hj : j ∈ (lookupEc gmap e).getD []) : j ∈ ecMcsSet g common gmap := by
  simp only [ecMcsSet, List.mem_flatMap, find_ec_mcs, List.mem_singleton]
  exact ⟨j, ⟨e, he, hj⟩, rfl⟩

theorem natoms_remove_atoms_le (g : Graph) (l : List Nat) :
    natoms (remove_atoms g l) ≤ natoms g := by
  simp only [natoms, remove_atoms, List.length_map]
  have := List.length_filter_le (fun i => decide (¬ i ∈ l)) (List.range g.labels.length)
  simpa using this

theorem natoms_remove_atoms_lt {g : Graph} {l : List Nat} {j : Nat}
    (hj : j < natoms g) (hmem : j ∈ l) :
    natoms (remove_atoms g l) < natoms g := by
  simp only [natoms, remove_atoms, List.length_map]
  have hle := List.length_filter_le (fun i => decide (¬ i ∈ l))
    (List.range g.labels.length)
  have hne : ((List.range g.labels.length).filter
      (fun i => decide (¬ i ∈ l))).length ≠ (List.range g.labels.length).length := by
    intro heq
    have hall := List.filter_length_eq_length.1 heq j
      (List.mem_range.2 (by simpa [natoms] using hj))
    simp [hmem] at hall
  have hlt := Nat.lt_of_le_of_ne hle hne
  simpa using hlt

theorem mcsStep_more {r p : Graph} {pr pp : List Nat}
    (h : hasCommon pr pp = true) :
    mcsStep r p pr pp = StepRes.more
      ⟨remove_atoms r (ecMcsSet r (common_ecs (make_ec_map pr) (make_ec_map pp))
          (make_ec_map pr)),
        remove_atoms p (ecMcsSet p (common_ecs (make_ec_map pr) (make_ec_map pp))
          (make_ec_map pp)), some (pr, pp)⟩ := by
  have hne := common_ecs_make_ne_nil h
  simp [mcsStep, hne]

theorem outerStep_cases (iF : Nat) (s : LWState) (hp : PrevOkB s.prev = true) :
    (outerStep iF s).isDone = false ∧
    ∀ s2, outerStep iF s = StepRes.more s2 → PrevOkB s2.prev = true := by
  rcases hil : innerLoop s.reactant s.product iF (init_ecs s.reactant)
      (init_ecs s.product) s.prev with _ | ⟨po, nr2, np2⟩
  · refine ⟨by simp [outerStep, hil, StepRes.isDone], fun s2 h2 => ?_⟩
    simp [outerStep, hil] at h2
  · rcases po with _ | ⟨pr, pp⟩
    · refine ⟨by simp [outerStep, hil, StepRes.isDone], fun s2 h2 => ?_⟩
      simp [outerStep, hil] at h2
    · have hok : PrevOkB (some (pr, pp)) = true := innerLoop_prevOk hp hil
      have hcm : hasCommon pr pp = true := by simpa [PrevOkB] using hok
      have hmc := mcsStep_more (r := s.reactant) (p := s.product) hcm
      constructor
      · simp [outerStep, hil, hmc, StepRes.isDone]
      · intro s2 h2
        simp only [outerStep, hil, hmc, StepRes.more.injEq] at h2
        subst h2
        simpa [PrevOkB] using hcm

theorem innerLoop_shift (r p : Graph) : ∀ (d fuel j : Nat)
    (prev0 : Option (List Nat × List Nat)), d ≤ fuel →
    (∀ m, j ≤ m → m < j + d → hasCommon (ecAt r m) (ecAt p m) = true) →
    hasCommon (ecAt r (j + d)) (ecAt p (j + d)) = false →
    innerLoop r p fuel (ecAt r j) (ecAt p j) prev0 =
      some ((if d = 0 then prev0
          else some (ecAt r (j + d - 1), ecAt p (j + d - 1))),
        ecAt r (j + d), ecAt p (j + d))
  | 0, fuel, j, prev0, hf, hb, hd => by
    simp only [Nat.add_zero] at hd ⊢
    cases fuel with
    | zero => simp [innerLoop, hd]
    | succ f => simp [innerLoop, hd]
  | d + 1, fuel, j, prev0, hf, hb, hd => by
    have hcj : hasCommon (ecAt r j) (ecAt p j) = true :=
      hb j (Nat.le_refl j) (by omega)
    cases fuel with
    | zero => omega
    | succ f =>
      have hj1 : j + 1 + d = j + (d + 1) := by omega
      have hrec := innerLoop_shift r p d f (j + 1) (some (ecAt r j, ecAt p j))
        (by omega) (fun m hm1 hm2 => hb m (by omega) (by omega))
        (by rw [hj1]; exact hd)
      have e1 : increment_ecs r (ecAt r j) = ecAt r (j + 1) := rfl
      have e2 : increment_ecs p (ecAt p j) = ecAt p (j + 1) := rfl
      simp only [innerLoop, hcj, if_true, e1, e2]
      rw [hrec]
      cases d with
      | zero => simp
      | succ d2 =>
        have h1 : j + 1 + (d2 + 1) - 1 = j + (d2 + 1 + 1) - 1 := by omega
        have h2 : j + 1 + (d2 + 1) = j + (d2 + 1 + 1) := by omega
        simp only [h1, h2]
        simp

/-- Modelled from the spec: the reaction notation separator scan performed by
Python's `smiles.split(x3e x3e)` — leftmost, non-overlapping. -/
def splitSep : List Char → List (List Char)
  | [] => [[]]
  | [c] => [[c]]
  | c :: d :: rest =>
    if c = '>' ∧ d = '>' then [] :: splitSep rest
    else
      match splitSep (d :: rest) with
      | [] => [[c]]
      | h :: t => (c :: h) :: t

/-- Number of (leftmost, non-overlapping) occurrences of the two-character
separator in a string. -/
def countSep : List Char → Nat
  | [] => 0
  | [_] => 0
  | c :: d :: rest =>
    if c = '>' ∧ d = '>' then countSep rest + 1 else countSep (d :: rest)

/-- Re-joins the parts produced by `splitSep`, reinserting the separator. -/
def joinSep : List (List Char) → List Char
  | [] => []
  | [x] => x
  | x :: y :: t => x ++ '>' :: '>' :: joinSep (y :: t)

theorem splitSep_ne_nil : ∀ (s : List Char), splitSep s ≠ []
  | [] => by simp [splitSep]
  | [c] => by simp [splitSep]
  | c :: d :: rest => by
    by_cases h : c = '>' ∧ d = '>'
    · simp [splitSep, h]
    · rcases hsp : splitSep (d :: rest) with _ | ⟨hh, tt⟩
      · simp [splitSep, h, hsp]
      · simp [splitSep, h, hsp]

theorem length_splitSep : ∀ (s : List Char), (splitSep s).length = countSep s + 1
  | [] => rfl
  | [c] => rfl
  | c :: d :: rest => by
    by_cases h : c = '>' ∧ d = '>'
    · simp only [splitSep, countSep, if_pos h, List.length_cons]
      rw [length_splitSep rest]
    · have ih := length_splitSep (d :: rest)
      have hne := splitSep_ne_nil (d :: rest)
      rcases hsp : splitSep (d :: rest) with _ | ⟨hh, tt⟩
      · exact absurd hsp hne
      · rw [hsp] at ih
        simp only [splitSep, countSep, if_neg h, hsp, List.length_cons] at ih ⊢
        exact ih

theorem joinSep_splitSep : ∀ (s : List Char), joinSep (splitSep s) = s
  | [] => rfl
  | [c] => rfl
  | c :: d :: rest => by
    by_cases h : c = '>' ∧ d = '>'
    · have ih := joinSep_splitSep rest
      rcases hsp : splitSep rest with _ | ⟨hh, tt⟩
      · exact absurd hsp (splitSep_ne_nil rest)
      · rw [hsp] at ih
        simp only [splitSep, if_pos h, hsp, joinSep, List.nil_append]
        rw [ih, h.1, h.2]
    · have ih := joinSep_splitSep (d :: rest)
      rcases hsp : splitSep (d :: rest) with _ | ⟨hh, tt⟩
      · exact absurd hsp (splitSep_ne_nil (d :: rest))
      · rw [hsp] at ih
        simp only [splitSep, if_neg h, hsp]
        rcases tt with _ | ⟨y, t2⟩
        · simp only [joinSep] at ih ⊢
          rw [ih]
        · simp only [joinSep] at ih ⊢
          rw [List.cons_append, ih]

/-- The `ValueError` surfaces of `Reaction.__init__`: failed tuple unpacking
of the `split` result, or a rejected half. -/
inductive InitErr where
  | unpackCount
  | invalidReactant
  | invalidProduct
deriving DecidableEq

/-- The successfully constructed `Reaction` object state. -/
structure ReactionOk where
  reactant_smiles : List Char
  product_smiles : List Char
  reactant : Graph
  product : Graph
deriving DecidableEq

/-- `Reaction.__init__` (lines 10-20): split the notation on the separator,
unpack into exactly two halves (a `ValueError` otherwise), then hand each
half to the molecule parser, re-raising its rejections as `ValueError`.
The parser itself is a collaborator; it is passed in as `parse`, modelled
from the spec as an arbitrary deterministic partial parsing function. -/
def reactionInit (parse : List Char → Option Graph) (smiles : List Char) :
    Except InitErr ReactionOk :=
  match splitSep smiles with
  | [r, p] =>
    match parse r with
    | none => Except.error InitErr.invalidReactant
    | some rg =>
      match parse p with
      | none => Except.error InitErr.invalidProduct
      | some pg => Except.ok ⟨r, p, rg, pg⟩
  | _ => Except.error InitErr.unpackCount

theorem mem_idxsFrom_zero {j e : Nat} {l : List Nat} :
    j ∈ idxsFrom 0 l e ↔ j < l.length ∧ l.getD j 0 = e := by
  rw [mem_idxsFrom]
  constructor
  · rintro ⟨h1, h2, h3⟩
    rw [Nat.sub_zero] at h2 h3
    exact ⟨h2, h3⟩
  · rintro ⟨h2, h3⟩
    exact ⟨Nat.zero_le j, by simpa using h2, by simpa using h3⟩

/-- A 2-atom path graph (example reactant). -/
def gR : Graph := ⟨[1, 1], [(0, 1)]⟩

/-- A 3-atom path graph (example product). -/
def gP : Graph := ⟨[1, 1, 1], [(0, 1), (1, 2)]⟩

/-- A single-atom graph. -/
def gA : Graph := ⟨[1], []⟩

/-- A single-atom graph with a different label. -/
def gB : Graph := ⟨[2], []⟩

/-- The empty graph. -/
def gE : Graph := ⟨[], []⟩

/-- The state reached after the first outer iteration on `gR`, `gP`:
both graphs pruned, `prev` still holding the pre-removal EC sequences. -/
def staleS1 : LWState := ⟨gE, gA, some ([3, 3], [3, 5, 3])⟩

/-- The state reached after the second outer iteration on `gR`, `gP`:
both graphs empty, `prev` unchanged — a fixpoint of the outer step. -/
def staleS2 : LWState := ⟨gE, gE, some ([3, 3], [3, 5, 3])⟩

/-- Claim C1: refuted on the code.  With reactant `gA` and product `gB`,
whose round-0 EC value-sets are disjoint at entry, the first outer
iteration's refinement body runs zero times, so `prev_reactant_ecs` is still
unassigned when line 50 reads it, and `find_core` raises a `NameError`
instead of exiting cleanly with both graphs unchanged. -/
theorem find_core_disjoint_seed_name_error :
    hasCommon (init_ecs gA) (init_ecs gB) = false ∧
    find_core 5 3 (initState gA gB) = Outcome.nameError := by
  decide

/-- Claim C2: refuted on the code.  Under the invariant that `prev` is
unassigned or was saved while the two EC value-sets overlapped (true of
every reachable state, and trivially of every entry state), `common_ecs` is
never empty when line 52 computes it, so the `break` at line 54 is
unreachable and `find_core` never returns — for any input pair and any
number of outer iterations, far beyond |atoms(reactant)| + |atoms(product)|. -/
theorem find_core_never_returns (iF fuel : Nat) (s : LWState)
    (h : PrevOkB s.prev = true) : (find_core iF fuel s).isOk = false := by
  induction fuel generalizing s with
  | zero => rfl
  | succ f ih =>
    have hoc := outerStep_cases iF s h
    cases hstep : outerStep iF s with
    | done g1 g2 =>
      have hd := hoc.1
      rw [hstep] at hd
      simp [StepRes.isDone] at hd
    | more s2 =>
      have hp2 := hoc.2 s2 hstep
      simp only [find_core, hstep]
      exact ih s2 hp2
    | nameError => simp [find_core, hstep, Outcome.isOk]
    | innerDiverge => simp [find_core, hstep, Outcome.isOk]

theorem find_core_never_returns_witness :
    PrevOkB (initState gR gP).prev = true ∧
    (find_core 5 7 (initState gR gP)).isOk = false :=
  ⟨by decide, find_core_never_returns 5 7 (initState gR gP) (by decide)⟩

/-- Claim C3: refuted on the code.  On the pair `gR`, `gP` the first outer
iteration removes atoms and leaves `prev` holding the pre-removal sequences
(lengths 2 and 3); the second outer iteration's round-0 value-sets are
disjoint, so its refinement body runs zero times and the MCS step consumes
the stale iteration-1 sequences — whose map sends EC 3 to indices {0, 2}
although the current product graph has a single atom. -/
theorem find_core_stale_map_eval :
    outerStep 5 (initState gR gP) = StepRes.more staleS1 ∧
    outerStep 5 staleS1 = StepRes.more staleS2 ∧
    hasCommon (init_ecs staleS1.reactant) (init_ecs staleS1.product) = false ∧
    natoms staleS1.product = 1 ∧
    lookupEc (make_ec_map [3, 5, 3]) 3 = some [0, 2] := by
  decide

/-- Claim C4: confirmed.  In an outer iteration whose refinement sub-loop
body executes at least once (the round-0 value-sets overlap) and terminates,
the saved pair `(a, b)` is the last round at which the value-sets still
overlapped: the exit-round sequences are exactly one refinement ahead of
`(a, b)` and are completely divergent, and the MCS phase receives the maps
of `(a, b)`, never the divergent-round sequences. -/
theorem find_core_uses_prev_round_maps (iF : Nat) (r p : Graph)
    (prev0 : Option (List Nat × List Nat)) (a b nr2 np2 : List Nat)
    (hstart : hasCommon (init_ecs r) (init_ecs p) = true)
    (hil : innerLoop r p iF (init_ecs r) (init_ecs p) prev0 =
      some (some (a, b), nr2, np2)) :
    hasCommon a b = true ∧
    nr2 = increment_ecs r a ∧ np2 = increment_ecs p b ∧
    hasCommon nr2 np2 = false ∧
    outerStep iF ⟨r, p, prev0⟩ = mcsStep r p a b := by
  have hdiv := innerLoop_exit_divergent hil
  rcases innerLoop_cases (length_init_ecs r) (length_init_ecs p) hil with
    ⟨hq, _, _, _⟩ | ⟨a2, b2, hpr, hcom, hl1, hl2, hn1, hn2⟩
  · rw [hstart] at hq
    exact absurd hq (by simp)
  · simp only [Option.some_inj, Prod.mk.injEq] at hpr
    obtain ⟨rfl, rfl⟩ := hpr
    exact ⟨hcom, hn1, hn2, hdiv, by simp [outerStep, hil]⟩

theorem find_core_uses_prev_round_maps_witness :
    hasCommon [3, 3] [3, 5, 3] = true ∧
    ([6, 6] : List Nat) = increment_ecs gR [3, 3] ∧
    ([8, 11, 8] : List Nat) = increment_ecs gP [3, 5, 3] ∧
    hasCommon [6, 6] [8, 11, 8] = false ∧
    outerStep 5 ⟨gR, gP, none⟩ = mcsStep gR gP [3, 3] [3, 5, 3] :=
  find_core_uses_prev_round_maps 5 gR gP none [3, 3] [3, 5, 3] [6, 6]
    [8, 11, 8] (by decide) (by decide)

/-- Claim C5 counterexample: for identical connected single-atom graphs
(diameter 0), the EC value-sets coincide at every round and never diverge,
so the refinement sub-loop does not terminate within diameter+1 = 1 rounds —
nor within 100. -/
theorem inner_loop_diameter_bound_fails :
    innerLoop gA gA 1 (init_ecs gA) (init_ecs gA) none = none ∧
    innerLoop gA gA 100 (init_ecs gA) (init_ecs gA) none = none := by
  decide

/-- Claim C5 amended: the sub-loop tests the round-0 value-sets before any
refinement, and whenever the per-round value-sets first become disjoint at
some round k (all earlier rounds overlapping), it stops exactly there,
returning the round-k sequences, with `prev` holding round k-1 when k > 0
and left untouched when k = 0.  No diameter-based bound on k holds, and for
inputs whose value-sets never diverge the sub-loop does not terminate. -/
theorem inner_loop_exits_at_first_divergence (r p : Graph) (k fuel : Nat)
    (prev0 : Option (List Nat × List Nat)) (hfuel : k ≤ fuel)
    (hbefore : ∀ j, j < k → hasCommon (ecAt r j) (ecAt p j) = true)
    (hdiv : hasCommon (ecAt r k) (ecAt p k) = false) :
    innerLoop r p fuel (init_ecs r) (init_ecs p) prev0 =
      some ((if k = 0 then prev0 else some (ecAt r (k - 1), ecAt p (k - 1))),
        ecAt r k, ecAt p k) := by
  have hsh := innerLoop_shift r p k fuel 0 prev0 hfuel
    (fun m hm1 hm2 => hbefore m (by omega)) (by simpa using hdiv)
  simpa [ecAt] using hsh

theorem inner_loop_exits_at_first_divergence_witness :
    innerLoop gR gP 5 (init_ecs gR) (init_ecs gP) none =
      some ((if 1 = 0 then none else some (ecAt gR (1 - 1), ecAt gP (1 - 1))),
        ecAt gR 1, ecAt gP 1) :=
  inner_loop_exits_at_first_divergence gR gP 1 5 none (by decide)
    (fun j hj => by
      have hj0 : j = 0 := by omega
      rw [hj0]
      decide)
    (by decide)

/-- Claim C6 counterexample: a reachable outer iteration (the third on the
pair `gR`, `gP`) that does not take the `common_ecs`-empty exit yet removes
nothing: the state `staleS2` is a fixpoint of the outer step, so neither
graph's atom count strictly decreases on that iteration. -/
theorem outer_step_no_strict_decrease :
    outerStep 5 (initState gR gP) = StepRes.more staleS1 ∧
    outerStep 5 staleS1 = StepRes.more staleS2 ∧
    outerStep 5 staleS2 = StepRes.more staleS2 ∧
    natoms staleS2.reactant = 0 ∧ natoms staleS2.product = 0 := by
  decide

/-- Claim C6 amended: across outer iterations the atom count of each graph
is non-increasing, and it strictly decreases — in both graphs — on every
iteration whose refinement sub-loop body executed at least once (round-0
value-sets overlapping); an iteration that instead consumes a stale saved
pair may leave the counts unchanged. -/
theorem outer_step_atom_counts (iF : Nat) (s s2 : LWState)
    (h : outerStep iF s = StepRes.more s2) :
    (natoms s2.reactant ≤ natoms s.reactant ∧
      natoms s2.product ≤ natoms s.product) ∧
    (hasCommon (init_ecs s.reactant) (init_ecs s.product) = true →
      natoms s2.reactant < natoms s.reactant ∧
      natoms s2.product < natoms s.product) := by
  rcases hil : innerLoop s.reactant s.product iF (init_ecs s.reactant)
      (init_ecs s.product) s.prev with _ | ⟨po, nr2, np2⟩
  · simp [outerStep, hil] at h
  · rcases po with _ | ⟨pr, pp⟩
    · simp [outerStep, hil] at h
    · simp only [outerStep, hil] at h
      by_cases hcom : common_ecs (make_ec_map pr) (make_ec_map pp) = []
      · simp [mcsStep, hcom] at h
      · simp only [mcsStep, if_neg hcom, StepRes.more.injEq] at h
        subst h
        constructor
        · exact ⟨natoms_remove_atoms_le _ _, natoms_remove_atoms_le _ _⟩
        · intro hstart
          rcases innerLoop_cases (length_init_ecs s.reactant)
              (length_init_ecs s.product) hil with
            ⟨hq, _, _, _⟩ | ⟨a, b, hpr, hcm, hl1, hl2, -, -⟩
          · rw [hstart] at hq
            exact absurd hq (by simp)
          · simp only [Option.some_inj, Prod.mk.injEq] at hpr
            obtain ⟨rfl, rfl⟩ := hpr
            rcases hasCommon_iff.1 hcm with ⟨e, he1, he2⟩
            have hlkr : lookupEc (make_ec_map pr) e = some (idxsFrom 0 pr e) := by
              rw [lookupEc_make_ec_map, if_pos he1]
            have hlkp : lookupEc (make_ec_map pp) e = some (idxsFrom 0 pp e) := by
              rw [lookupEc_make_ec_map, if_pos he2]
            have hec : e ∈ common_ecs (make_ec_map pr) (make_ec_map pp) :=
              mem_common_ecs.2 ⟨mem_mapKeys_make.2 he1, mem_mapKeys_make.2 he2⟩
            rcases List.exists_mem_of_ne_nil _ (idxsFrom_ne_nil e pr 0 he1) with
              ⟨j1, hj1⟩
            rcases List.exists_mem_of_ne_nil _ (idxsFrom_ne_nil e pp 0 he2) with
              ⟨j2, hj2⟩
            have hj1lt : j1 < natoms s.reactant := by
              have hx := (mem_idxsFrom_zero.1 hj1).1
              omega
            have hj2lt : j2 < natoms s.product := by
              have hx := (mem_idxsFrom_zero.1 hj2).1
              omega
            have hm1 : j1 ∈ ecMcsSet s.reactant
                (common_ecs (make_ec_map pr) (make_ec_map pp)) (make_ec_map pr) :=
              mem_ecMcsSet e hec (by rw [hlkr]; simpa using hj1)
            have hm2 : j2 ∈ ecMcsSet s.product
                (common_ecs (make_ec_map pr) (make_ec_map pp)) (make_ec_map pp) :=
              mem_ecMcsSet e hec (by rw [hlkp]; simpa using hj2)
            exact ⟨natoms_remove_atoms_lt hj1lt hm1,
              natoms_remove_atoms_lt hj2lt hm2⟩

theorem outer_step_atom_counts_witness :
    ((natoms staleS1.reactant ≤ natoms (initState gR gP).reactant ∧
      natoms staleS1.product ≤ natoms (initState gR gP).product) ∧
    (hasCommon (init_ecs (initState gR gP).reactant)
        (init_ecs (initState gR gP).product) = true →
      natoms staleS1.reactant < natoms (initState gR gP).reactant ∧
      natoms staleS1.product < natoms (initState gR gP).product)) :=
  outer_step_atom_counts 5 (initState gR gP) staleS1 (by decide)

/-- Claim C7: refuted on the code.  The only normal exit of `find_core` (the
`common_ecs`-empty break) is unreachable from any entry state, so repeated
invocations produce no residual graphs at all: on the pair `gR`, `gP` the
run exhausts any iteration budget, the state having entered a fixpoint of
the outer step. -/
theorem find_core_produces_no_residual :
    find_core 5 9 (initState gR gP) = Outcome.fuelOut ∧
    find_core 5 50 (initState gR gP) = Outcome.fuelOut ∧
    outerStep 5 staleS2 = StepRes.more staleS2 := by
  decide

/-- Claim C8: confirmed.  `make_ec_map` is a pure function of its input
sequence (the embedding takes no graph at all): its keys are exactly the
distinct values occurring in the sequence, each key maps to the strictly
increasing list of precisely the indices 0..n-1 holding that value, and
every index lies in exactly one bucket. -/
theorem make_ec_map_correct (ecs : List Nat) :
    (∀ e, e ∈ mapKeys (make_ec_map ecs) ↔ e ∈ ecs) ∧
    (∀ e bucket, lookupEc (make_ec_map ecs) e = some bucket →
      bucket ≠ [] ∧ List.Pairwise (· < ·) bucket ∧
      (∀ j, j ∈ bucket ↔ j < ecs.length ∧ ecs.getD j 0 = e)) ∧
    (∀ e1 e2 b1 b2 j, lookupEc (make_ec_map ecs) e1 = some b1 →
      lookupEc (make_ec_map ecs) e2 = some b2 → j ∈ b1 → j ∈ b2 → e1 = e2) := by
  have hchar : ∀ e bucket, lookupEc (make_ec_map ecs) e = some bucket →
      bucket = idxsFrom 0 ecs e ∧ e ∈ ecs := by
    intro e bucket hb
    rw [lookupEc_make_ec_map] at hb
    by_cases he : e ∈ ecs
    · rw [if_pos he] at hb
      exact ⟨(Option.some_inj.1 hb).symm, he⟩
    · rw [if_neg he] at hb
      exact absurd hb (by simp)
  refine ⟨fun e => mem_mapKeys_make, fun e bucket hb => ?_,
    fun e1 e2 b1 b2 j h1 h2 hj1 hj2 => ?_⟩
  · obtain ⟨rfl, he⟩ := hchar e bucket hb
    exact ⟨idxsFrom_ne_nil e ecs 0 he, pairwise_idxsFrom e ecs 0,
      fun j => mem_idxsFrom_zero⟩
  · obtain ⟨rfl, -⟩ := hchar e1 b1 h1
    obtain ⟨rfl, -⟩ := hchar e2 b2 h2
    have g1 := (mem_idxsFrom_zero.1 hj1).2
    have g2 := (mem_idxsFrom_zero.1 hj2).2
    rw [← g1, ← g2]

theorem make_ec_map_correct_witness :
    ([0, 2] : List Nat) ≠ [] ∧ List.Pairwise (· < ·) ([0, 2] : List Nat) ∧
    (∀ j, j ∈ ([0, 2] : List Nat) ↔
      j < ([7, 4, 7] : List Nat).length ∧ ([7, 4, 7] : List Nat).getD j 0 = 7) :=
  (make_ec_map_correct [7, 4, 7]).2.1 7 [0, 2] (by decide)

/-- Claim C9: confirmed.  Whenever the refinement sub-loop body executes at
least once in an outer iteration (round-0 value-sets overlapping) and the
sub-loop terminates, the subsequently computed `common_ecs` equals — as a
set — the intersection of the saved round's EC value-sets, which is
nonempty, so the `common_ecs`-empty exit cannot be taken in that
iteration. -/
theorem common_ecs_nonempty_after_refinement (iF : Nat) (r p : Graph)
    (prev0 : Option (List Nat × List Nat)) (a b nr2 np2 : List Nat)
    (hstart : hasCommon (init_ecs r) (init_ecs p) = true)
    (hil : innerLoop r p iF (init_ecs r) (init_ecs p) prev0 =
      some (some (a, b), nr2, np2)) :
    common_ecs (make_ec_map a) (make_ec_map b) ≠ [] ∧
    (∀ e, e ∈ common_ecs (make_ec_map a) (make_ec_map b) ↔ e ∈ a ∧ e ∈ b) ∧
    (outerStep iF ⟨r, p, prev0⟩).isDone = false := by
  rcases innerLoop_cases (length_init_ecs r) (length_init_ecs p) hil with
    ⟨hq, -, -, -⟩ | ⟨a2, b2, hpr, hcom, -, -, -, -⟩
  · rw [hstart] at hq
    exact absurd hq (by simp)
  · simp only [Option.some_inj, Prod.mk.injEq] at hpr
    obtain ⟨rfl, rfl⟩ := hpr
    refine ⟨common_ecs_make_ne_nil hcom, fun e => ?_, ?_⟩
    · rw [mem_common_ecs, mem_mapKeys_make, mem_mapKeys_make]
    · simp only [outerStep, hil]
      rw [mcsStep_more hcom]
      simp [StepRes.isDone]

theorem common_ecs_nonempty_after_refinement_witness :
    common_ecs (make_ec_map [3, 3]) (make_ec_map [3, 5, 3]) ≠ [] ∧
    (∀ e, e ∈ common_ecs (make_ec_map [3, 3]) (make_ec_map [3, 5, 3]) ↔
      e ∈ ([3, 3] : List Nat) ∧ e ∈ ([3, 5, 3] : List Nat)) ∧
    (outerStep 5 ⟨gR, gP, none⟩).isDone = false :=
  common_ecs_nonempty_after_refinement 5 gR gP none [3, 3] [3, 5, 3]
    [6, 6] [8, 11, 8] (by decide) (by decide)

/-- Claim C10: confirmed (with the molecule parser abstracted): construction
fails with a `ValueError` exactly when the notation does not split into two
halves around a single separator occurrence, or when a half is rejected by
the parser; on success the stored halves are precisely the substrings before
and after the separator and both molecule objects are built. -/
theorem reaction_init_spec (parse : List Char → Option Graph) (s : List Char) :
    (countSep s ≠ 1 → reactionInit parse s = Except.error InitErr.unpackCount) ∧
    (countSep s = 1 → ∃ a b, splitSep s = [a, b]) ∧
    (∀ a b, splitSep s = [a, b] →
      countSep s = 1 ∧
      s = a ++ '>' :: '>' :: b ∧
      (parse a = none →
        reactionInit parse s = Except.error InitErr.invalidReactant) ∧
      (∀ ga, parse a = some ga → parse b = none →
        reactionInit parse s = Except.error InitErr.invalidProduct) ∧
      (∀ ga gb, parse a = some ga → parse b = some gb →
        reactionInit parse s = Except.ok ⟨a, b, ga, gb⟩)) := by
  have hlen := length_splitSep s
  rcases hsp : splitSep s with _ | ⟨a0, t⟩
  · exact absurd hsp (splitSep_ne_nil s)
  · rcases t with _ | ⟨b0, t2⟩
    · rw [hsp] at hlen
      simp only [List.length_cons, List.length_nil] at hlen
      refine ⟨fun _ => by simp [reactionInit, hsp],
        fun h1 => absurd h1 (by omega), fun a b hab => ?_⟩
      have := congrArg List.length hab
      simp at this
    · rcases t2 with _ | ⟨c0, t3⟩
      · rw [hsp] at hlen
        simp only [List.length_cons, List.length_nil] at hlen
        have hc : countSep s = 1 := by omega
        refine ⟨fun h1 => absurd hc h1, fun _ => ⟨a0, b0, rfl⟩,
          fun a b hab => ?_⟩
        simp only [List.cons.injEq, and_true] at hab
        obtain ⟨rfl, rfl⟩ := hab
        have hjoin := joinSep_splitSep s
        rw [hsp] at hjoin
        refine ⟨hc, ?_, ?_, ?_, ?_⟩
        · rw [← hjoin]
          simp [joinSep]
        · intro hpa
          simp [reactionInit, hsp, hpa]
        · intro ga hga hpb
          simp [reactionInit, hsp, hga, hpb]
        · intro ga gb hga hgb
          simp [reactionInit, hsp, hga, hgb]
      · rw [hsp] at hlen
        simp only [List.length_cons] at hlen
        refine ⟨fun _ => by simp [reactionInit, hsp], fun h1 => by omega,
          fun a b hab => ?_⟩
        have := congrArg List.length hab
        simp at this

theorem reaction_init_spec_witness :
    countSep ['a', '>', '>', 'b'] = 1 ∧
    (['a', '>', '>', 'b'] : List Char) = ['a'] ++ '>' :: '>' :: ['b'] ∧
    reactionInit (fun x => some gE) ['a', '>', '>', 'b'] =
      Except.ok ⟨['a'], ['b'], gE, gE⟩ := by
  have h := (reaction_init_spec (fun x => some gE) ['a', '>', '>', 'b']).2.2
    ['a'] ['b'] (by decide)
  exact ⟨h.1, h.2.1, h.2.2.2.2 gE gE rfl rfl⟩

end Mapper
